import Mathlib

/-
Verification of the cp2 concurrent copy engine against its design document.

The Rust sources (src/copy.rs, src/utils.rs, src/cli.rs) are shallowly
embedded: paths become explicit component lists, the filesystem becomes an
inductive tree of directories and files, asynchronous I/O becomes explicit
state passing, and each fallible operation returns its effects together
with an optional error.
-/

namespace Cp2

/-- A path component as produced by Rust `Path::components()` after the
optional leading `RootDir`: `.` (`CurDir`), `..` (`ParentDir`), or a normal
name.  The Windows-only `Prefix` component is not modelled (the code
ignores it on non-Windows systems). -/
inductive Comp where
  | curDir
  | parentDir
  | normal (s : String)
deriving DecidableEq

/-- A Rust path: an `absolute` flag (a leading `RootDir` component) plus the
remaining components in order. -/
structure Path where
  absolute : Bool
  comps : List Comp
deriving DecidableEq

/-- Rust `Path::join`: an absolute right operand replaces the left operand,
otherwise the components are concatenated. -/
def Path.join (p q : Path) : Path :=
  if q.absolute then q else ⟨p.absolute, p.comps ++ q.comps⟩

/-- Pushing one plain (normal) component, as in `to.join(relative_path)` for
a single directory-entry name. -/
def Path.push (p : Path) (n : String) : Path :=
  ⟨p.absolute, p.comps ++ [Comp.normal n]⟩

/-- Pushing a relative chain of plain names. -/
def Path.pushAll (p : Path) (rs : List String) : Path :=
  ⟨p.absolute, p.comps ++ rs.map Comp.normal⟩

/-- Rust `Path::file_name()`: the last component when it is a normal name,
`None` otherwise (e.g. a path ending in `..`, or a bare root). -/
def Path.fileName (p : Path) : Option String :=
  match p.comps.getLast? with
  | some (Comp.normal s) => some s
  | _ => none

/-- A component of a normalized path: the root marker or a normal name.
This is what `normalize_path` in src/copy.rs accumulates into its
`PathBuf` return value. -/
inductive NComp where
  | root
  | normal (s : String)
deriving DecidableEq

/-- Rust `PathBuf::pop` as used by `normalize_path` (src/copy.rs:110): drops
the last component; a no-op on an empty path and on the bare root. -/
def npop (l : List NComp) : List NComp :=
  if l = [NComp.root] then l else l.dropLast

/-- One step of the component loop of `normalize_path` (src/copy.rs:105-116):
normal names are pushed, `.` is skipped, `..` pops. -/
def normStep (acc : List NComp) : Comp → List NComp
  | Comp.normal s => acc ++ [NComp.normal s]
  | Comp.curDir => acc
  | Comp.parentDir => npop acc

/-- The component loop of `normalize_path`, left to right over the
components with accumulator `acc` (the `ret` variable). -/
def normAux (acc : List NComp) : List Comp → List NComp
  | [] => acc
  | c :: cs => normAux (normStep acc c) cs

/-- Model of `normalize_path` from src/copy.rs:96-118: keep a leading `RootDir` if
present, then fold the remaining components. -/
def normalize_path (p : Path) : List NComp :=
  normAux (if p.absolute then [NComp.root] else []) p.comps

/-- The self-containment condition of `copy_dir_recursive`
(src/copy.rs:125-129): both paths are resolved against the current working
directory and normalized, then
`to_normalized.starts_with(&from_normalized) && to_normalized != from_normalized`. -/
def destInsideSource (cwd src dst : Path) : Bool :=
  let from_normalized := normalize_path (cwd.join src)
  let to_normalized := normalize_path (cwd.join dst)
  decide (from_normalized <+: to_normalized) && decide (to_normalized ≠ from_normalized)

/-- The error message of the self-containment check (src/copy.rs:130). -/
def insideErr : String := "cannot copy a directory into itself"

/-- Stand-in for the I/O error `fs::read_dir` raises when the source is not
a directory (src/copy.rs:136). -/
def readDirErr : String := "not a directory"

/-- The ellipsis used by `trim_filename` (src/utils.rs:11). -/
def ellipsis : List Char := ['.', '.', '.']

/-- Model of `trim_filename` from src/utils.rs:5-23, with the byte string modelled as
a list of characters (the Rust code slices by bytes; on single-byte
characters the two coincide). -/
def trim_filename (name : List Char) (max_len : Nat) : List Char :=
  if name.length ≤ max_len then name
  else if max_len ≤ ellipsis.length then ellipsis
  else
    let remaining := max_len - ellipsis.length
    let start_len := (remaining + 1) / 2
    let end_len := remaining / 2
    name.take start_len ++ ellipsis ++ name.drop (name.length - end_len)

/-- A filesystem subtree: a regular file with its byte content, or a
directory with its named direct children.  Non-regular, non-directory
entries (symlinks, devices) are out of scope, as in the design document. -/
inductive FsTree where
  | file (content : List Nat)
  | dir (entries : List (String × FsTree))

mutual

/-- Number of regular files in a subtree.  Modelled from the spec:
"the number of regular files" half of `estimate_size`'s contract. -/
def fileCount : FsTree → Nat
  | FsTree.file _ => 1
  | FsTree.dir es => fileCountList es

/-- Number of regular files under a list of directory entries. -/
def fileCountList : List (String × FsTree) → Nat
  | [] => 0
  | (_, t) :: rest => fileCount t + fileCountList rest

end

mutual

/-- Total size in bytes of the regular files in a subtree.  Modelled from
the spec: "the sum of their sizes in bytes" half of `estimate_size`'s
contract. -/
def totalSize : FsTree → Nat
  | FsTree.file c => c.length
  | FsTree.dir es => totalSizeList es

/-- Total size in bytes under a list of directory entries. -/
def totalSizeList : List (String × FsTree) → Nat
  | [] => 0
  | (_, t) :: rest => totalSize t + totalSizeList rest

end

/-- The explicit-stack loop of `get_copy_size` (src/utils.rs:31-44).  The
Rust `Vec` pushes the children of a directory in enumeration order and pops
from the end, so the children enter the model's head-first stack reversed. -/
def sizeLoop (stack : List FsTree) (num_files total_size : Nat) : Nat × Nat :=
  match stack with
  | [] => (num_files, total_size)
  | FsTree.dir es :: rest =>
      sizeLoop ((es.map Prod.snd).reverse ++ rest) num_files total_size
  | FsTree.file c :: rest =>
      sizeLoop rest (num_files + 1) (total_size + c.length)
termination_by (stack.map sizeOf).sum
decreasing_by
  · have hlt : ∀ es : List (String × FsTree),
        ((es.map Prod.snd).map sizeOf).sum < 1 + sizeOf es := by
      intro es
      induction es with
      | nil => simp
      | cons e rest ih =>
        obtain ⟨n, t⟩ := e
        simp only [List.map_cons, List.sum_cons, List.cons.sizeOf_spec,
          Prod.mk.sizeOf_spec]
        omega
    simp only [List.map_append, List.sum_append, List.map_reverse,
      List.sum_reverse, List.map_cons, List.sum_cons, FsTree.dir.sizeOf_spec]
    have := hlt es
    omega
  · simp only [List.map_cons, List.sum_cons, FsTree.file.sizeOf_spec]
    omega

/-- Model of `get_copy_size` from src/utils.rs:26-46.  The argument is `none` for a
non-existent path (neither `is_dir()` nor `is_file()` holds, so the loop
skips it and terminates with the initial counters). -/
def get_copy_size : Option FsTree → Nat × Nat
  | none => (0, 0)
  | some t => sizeLoop [t] 0 0

/-- Constant `BUFFER_SIZE` from src/copy.rs:6: 8 MiB chunks. -/
def BUFFER_SIZE : Nat := 8 * 1024 * 1024

/-- Constant `SYNC_INTERVAL` from src/copy.rs:7: sync every 64 MiB. -/
def SYNC_INTERVAL : Nat := 64 * 1024 * 1024

/-- The mutable state of `copy_file_with_progress` (src/copy.rs:10-48):
the bytes written to the destination so far, the `total_bytes` counter,
the `bytes_since_sync` counter, the number of `sync_data` calls issued,
and the cumulative progress-bar increments. -/
structure CopyState where
  written : List Nat
  total_bytes : Nat
  bytes_since_sync : Nat
  syncs : Nat
  progress : Nat
deriving DecidableEq

/-- The read/write loop of `copy_file_with_progress` (src/copy.rs:22-42):
each `read` returns the next `BUFFER_SIZE`-sized chunk of the remaining
source bytes; a read of zero bytes exits the loop. -/
def copyLoop (remaining : List Nat) (st : CopyState) (hasPb : Bool) : CopyState :=
  if (remaining.take BUFFER_SIZE).length = 0 then st
  else
    let chunk := remaining.take BUFFER_SIZE
    let bytes_read := chunk.length
    let bytes_since_sync := st.bytes_since_sync + bytes_read
    let synced := SYNC_INTERVAL ≤ bytes_since_sync
    copyLoop (remaining.drop BUFFER_SIZE)
      { written := st.written ++ chunk
        total_bytes := st.total_bytes + bytes_read
        bytes_since_sync := if synced then 0 else bytes_since_sync
        syncs := if synced then st.syncs + 1 else st.syncs
        progress := if hasPb then st.progress + bytes_read else st.progress }
      hasPb
termination_by remaining.length
decreasing_by
  simp only [List.length_take, List.length_drop, BUFFER_SIZE] at *
  omega

/-- Model of `copy_file_with_progress` from src/copy.rs:10-48: chunked copy of one
file's bytes with an optional progress bar; the final state's `written`
field is the destination file content and `total_bytes` is the returned
byte count. -/
def copy_file_with_progress (src : List Nat) (hasPb : Bool) : CopyState :=
  copyLoop src ⟨[], 0, 0, 0, 0⟩ hasPb

/-- The mutable state of `copy_file_with_dual_progress` (src/copy.rs:51-93):
as `CopyState`, but with separate per-file and main progress counters. -/
structure DualCopyState where
  written : List Nat
  total_bytes : Nat
  bytes_since_sync : Nat
  syncs : Nat
  fileProgress : Nat
  mainProgress : Nat
deriving DecidableEq

/-- The read/write loop of `copy_file_with_dual_progress`
(src/copy.rs:64-87). -/
def dualCopyLoop (remaining : List Nat) (st : DualCopyState)
    (hasFilePb hasMainPb : Bool) : DualCopyState :=
  if (remaining.take BUFFER_SIZE).length = 0 then st
  else
    let chunk := remaining.take BUFFER_SIZE
    let bytes_read := chunk.length
    let bytes_since_sync := st.bytes_since_sync + bytes_read
    let synced := SYNC_INTERVAL ≤ bytes_since_sync
    dualCopyLoop (remaining.drop BUFFER_SIZE)
      { written := st.written ++ chunk
        total_bytes := st.total_bytes + bytes_read
        bytes_since_sync := if synced then 0 else bytes_since_sync
        syncs := if synced then st.syncs + 1 else st.syncs
        fileProgress := if hasFilePb then st.fileProgress + bytes_read else st.fileProgress
        mainProgress := if hasMainPb then st.mainProgress + bytes_read else st.mainProgress }
      hasFilePb hasMainPb
termination_by remaining.length
decreasing_by
  simp only [List.length_take, List.length_drop, BUFFER_SIZE] at *
  omega

/-- Model of `copy_file_with_dual_progress` from src/copy.rs:51-93. -/
def copy_file_with_dual_progress (src : List Nat)
    (hasFilePb hasMainPb : Bool) : DualCopyState :=
  dualCopyLoop src ⟨[], 0, 0, 0, 0, 0⟩ hasFilePb hasMainPb

/-- A filesystem mutation performed on the destination side:
`fs::create_dir_all` (src/copy.rs:134) or the creation of a destination
file with the bytes written by the chunked copier. -/
inductive Eff where
  | mkdir (p : Path)
  | writeFile (p : Path) (content : List Nat)
deriving DecidableEq

/-- The destination path an effect touches. -/
def Eff.path : Eff → Path
  | Eff.mkdir p => p
  | Eff.writeFile p _ => p

mutual

/-- Model of `copy_dir_recursive` from src/copy.rs:120-152.  `src`/`dst` are the
`from`/`to` arguments, `t` is the subtree the filesystem holds at `from`
(`FsTree.file` when `from` is not a directory, in which case `read_dir`
fails after the destination directory was already created).  Returns the
destination mutations performed, in order, and the error if one occurred;
on an error the effects already performed remain (no rollback). -/
def copy_dir_recursive (cwd src dst : Path) (pb : Bool) :
    FsTree → List Eff × Option String
  | FsTree.file _ =>
      if destInsideSource cwd src dst then ([], some insideErr)
      else ([Eff.mkdir dst], some readDirErr)
  | FsTree.dir es =>
      if destInsideSource cwd src dst then ([], some insideErr)
      else
        let r := copyEntries cwd src dst pb es
        (Eff.mkdir dst :: r.1, r.2)

/-- The entry loop of `copy_dir_recursive` (src/copy.rs:138-150): each
child directory recurses with `dest_path = to.join(relative_path)`; each
child file goes through `copy_file_with_progress`; the first error aborts
the loop. -/
def copyEntries (cwd src dst : Path) (pb : Bool) :
    List (String × FsTree) → List Eff × Option String
  | [] => ([], none)
  | (n, FsTree.file c) :: rest =>
      let st := copy_file_with_progress c pb
      let r := copyEntries cwd src dst pb rest
      (Eff.writeFile (dst.push n) st.written :: r.1, r.2)
  | (n, FsTree.dir es) :: rest =>
      let r1 := copy_dir_recursive cwd (src.push n) (dst.push n) pb (FsTree.dir es)
      match r1.2 with
      | some e => (r1.1, some e)
      | none =>
          let r2 := copyEntries cwd src dst pb rest
          (r1.1 ++ r2.1, r2.2)

end

/-- The effect list a successful `copy_dir_recursive` call produces for the
entries of a source directory, mirroring the entry loop. -/
def entryEffs (dst : Path) (pb : Bool) :
    List (String × FsTree) → List Eff
  | [] => []
  | (n, FsTree.file c) :: rest =>
      Eff.writeFile (dst.push n) (copy_file_with_progress c pb).written ::
        entryEffs dst pb rest
  | (n, FsTree.dir es) :: rest =>
      (Eff.mkdir (dst.push n) :: entryEffs (dst.push n) pb es) ++
        entryEffs dst pb rest

mutual

/-- The relative paths of all nodes of a subtree (the root itself included
as `[]`).  Modelled from the spec: the "set of relative paths" of a tree in
the round-trip property. -/
def relPaths : FsTree → List (List String)
  | FsTree.file _ => [[]]
  | FsTree.dir es => [] :: relPathsList es

/-- The relative paths contributed by a list of directory entries. -/
def relPathsList : List (String × FsTree) → List (List String)
  | [] => []
  | (n, t) :: rest => (relPaths t).map (n :: ·) ++ relPathsList rest

end

mutual

/-- Whether the subtree holds a regular file with content `c` at relative
path `r`.  Modelled from the spec: "every regular file's byte content is
identical to its source counterpart". -/
def hasFile : FsTree → List String → List Nat → Bool
  | FsTree.file c, [], c' => decide (c = c')
  | FsTree.file _, _ :: _, _ => false
  | FsTree.dir _, [], _ => false
  | FsTree.dir es, n :: r, c => hasFileList es n r c

/-- Whether some entry named `n` holds a file with content `c` at relative
path `r` below it. -/
def hasFileList : List (String × FsTree) → String → List String → List Nat → Bool
  | [], _, _, _ => false
  | (m, t) :: rest, n, r, c =>
      (decide (m = n) && hasFile t r c) || hasFileList rest n r c

end

/-- A scheduling event of one unit of work. -/
inductive Event where
  | acquire
  | release
  | recordFailure
  | copyFileWork
  | copyDirWork
deriving DecidableEq

/-- The trace of one spawned task of the scheduler (src/cli.rs:139-219):
the semaphore permit is acquired first (line 140); the source-existence and
directory-without-recursion checks run after it (lines 142-154); the permit
is released when the task body finishes, on every path.  The source entry
is `none` when the path does not exist. -/
def taskEvents : Option FsTree → Bool → List Event
  | none, _ =>
      [Event.acquire, Event.recordFailure, Event.release]
  | some (FsTree.dir _), false =>
      [Event.acquire, Event.recordFailure, Event.release]
  | some (FsTree.dir _), true =>
      [Event.acquire, Event.copyDirWork, Event.release]
  | some (FsTree.file _), _ =>
      [Event.acquire, Event.copyFileWork, Event.release]

/-- The resolved destination of one top-level entry (src/cli.rs:181-183 and
200-204): `destination.join(file_name)` where `file_name` is
`source.file_name()`, falling back to `OsStr::new(&source_str)`.  `join`
parses its argument: a present file name is a single normal component,
while the fallback raw string re-parses to the source path itself, which
`join` resolves in full (in particular an absolute fallback replaces the
destination). -/
def resolvedTarget (destination : Path) (src : Path) : Path :=
  destination.join
    (match src.fileName with
     | some n => ⟨false, [Comp.normal n]⟩
     | none => src)

/-- One unit of work of the scheduler (src/cli.rs:139-219), after the
permit acquisition: validity checks, then dispatch to the dual-progress
file copier or the recursive directory copier.  Returns the destination
mutations and whether this unit set the shared failure flag.  `srcStr` is
the raw source string, which the code uses for logging; its re-parse, as
consumed by the `file_name()` fallback, is `srcPath` itself. -/
def runUnit (cwd destination : Path) (recursive pb : Bool)
    (_srcStr : String) (srcPath : Path) (t : Option FsTree) : List Eff × Bool :=
  match t with
  | none => ([], true)
  | some (FsTree.file c) =>
      let dest_path := resolvedTarget destination srcPath
      let st := copy_file_with_dual_progress c pb pb
      ([Eff.writeFile dest_path st.written], false)
  | some (FsTree.dir es) =>
      if recursive then
        let dest_path := resolvedTarget destination srcPath
        let r := copy_dir_recursive cwd srcPath dest_path pb (FsTree.dir es)
        (r.1, r.2.isSome)
      else ([], true)

/-- The scheduler loop of `run` (src/cli.rs:131-232), modelled sequentially:
the only state the tasks share is the set-true-only failure flag and the
add-only progress counters, so the aggregate outcome is independent of the
interleaving.  Each source entry is its string, the parsed path, and the
subtree the filesystem holds there (`none` when missing).  Returns all
destination mutations and the final value of the failure flag. -/
def run_copy (cwd destination : Path) (recursive pb : Bool) :
    List (String × Path × Option FsTree) → List Eff × Bool
  | [] => ([], false)
  | (s, p, t) :: rest =>
      let r1 := runUnit cwd destination recursive pb s p t
      let r2 := run_copy cwd destination recursive pb rest
      (r1.1 ++ r2.1, r1.2 || r2.2)

/- ------------------------------------------------------------------ -/
/- Theorems                                                            -/
/- ------------------------------------------------------------------ -/

/-- Mutual induction for `FsTree` and entry lists, by strong induction on
`sizeOf`. -/
theorem fsTree_mutual_induction (P : FsTree → Prop)
    (Q : List (String × FsTree) → Prop)
    (hf : ∀ c, P (FsTree.file c))
    (hd : ∀ es, Q es → P (FsTree.dir es))
    (hn : Q [])
    (hc : ∀ n t rest, P t → Q rest → Q ((n, t) :: rest)) :
    (∀ t, P t) ∧ (∀ es, Q es) := by
  have key : ∀ k : Nat, (∀ t : FsTree, sizeOf t ≤ k → P t) ∧
      (∀ es : List (String × FsTree), sizeOf es ≤ k → Q es) := by
    intro k
    induction k with
    | zero =>
      constructor
      · intro t ht
        cases t <;> simp only [FsTree.file.sizeOf_spec, FsTree.dir.sizeOf_spec] at ht <;> omega
      · intro es hes
        cases es with
        | nil => exact hn
        | cons e rest => simp only [List.cons.sizeOf_spec] at hes; omega
    | succ k ih =>
      constructor
      · intro t ht
        cases t with
        | file c => exact hf c
        | dir es =>
          refine hd es (ih.2 es ?_)
          simp only [FsTree.dir.sizeOf_spec] at ht; omega
      · intro es hes
        cases es with
        | nil => exact hn
        | cons e rest =>
          obtain ⟨n, t⟩ := e
          simp only [List.cons.sizeOf_spec, Prod.mk.sizeOf_spec] at hes
          exact hc n t rest (ih.1 t (by omega)) (ih.2 rest (by omega))
  exact ⟨fun t => (key (sizeOf t)).1 t le_rfl, fun es => (key (sizeOf es)).2 es le_rfl⟩

/-- C9: `normalize_path` is a pure total function: it resolves paths by the
lexical component fold alone (normal names are pushed, `.` is skipped,
`..` pops the accumulated path), and a `..` component at the root of the
accumulated path — an empty relative accumulator or the bare root — is a
no-op: it cannot pop past empty. -/
theorem C9_normalize_path_lexical :
    (∀ p : Path, normalize_path p =
      normAux (if p.absolute then [NComp.root] else []) p.comps)
  ∧ (∀ acc s cs, normAux acc (Comp.normal s :: cs) =
      normAux (acc ++ [NComp.normal s]) cs)
  ∧ (∀ acc cs, normAux acc (Comp.curDir :: cs) = normAux acc cs)
  ∧ (∀ acc cs, normAux acc (Comp.parentDir :: cs) = normAux (npop acc) cs)
  ∧ (∀ cs, normAux [] (Comp.parentDir :: cs) = normAux [] cs)
  ∧ (∀ cs, normAux [NComp.root] (Comp.parentDir :: cs) =
      normAux [NComp.root] cs) := by
  refine ⟨fun p => rfl, fun acc s cs => rfl, fun acc cs => rfl,
    fun acc cs => rfl, fun cs => ?_, fun cs => ?_⟩
  · simp [normAux, normStep, npop]
  · simp [normAux, normStep, npop]

/-- C6 counterexample: the name `abcde` has length 5 and the display width
2 is smaller, yet `trim_filename` returns the 3-character ellipsis, not a
string of exactly 2 characters. -/
theorem C6_counterexample :
    2 < (['a', 'b', 'c', 'd', 'e'] : List Char).length ∧
    (trim_filename ['a', 'b', 'c', 'd', 'e'] 2).length ≠ 2 := by decide

/-- C6 (amended): for widths `3 ≤ W < L` the result has exactly `W`
characters and is a prefix of the name, the 3-character ellipsis, and a
suffix of the name; for widths `W < 3 < L` the result is the bare
3-character ellipsis (longer than `W`); names of length at most `W` are
returned unchanged. -/
theorem C6_trim_filename_amended :
    (∀ (name : List Char) (W : Nat), 3 ≤ W → W < name.length →
      (trim_filename name W).length = W ∧
      ∃ pre suf, trim_filename name W = pre ++ ellipsis ++ suf ∧
        pre <+: name ∧ suf <:+ name)
  ∧ (∀ (name : List Char) (W : Nat), W < 3 → W < name.length →
      trim_filename name W = ellipsis)
  ∧ (∀ (name : List Char) (W : Nat), name.length ≤ W →
      trim_filename name W = name) := by
  refine ⟨fun name W h3 hW => ?_, fun name W h3 hW => ?_, fun name W h => ?_⟩
  · rcases Nat.eq_or_lt_of_le h3 with h3' | h3'
    · subst h3'
      rw [trim_filename, if_neg (by omega), if_pos (by simp [ellipsis])]
      refine ⟨by simp [ellipsis], [], [], by simp, ?_, ?_⟩
      · exact ⟨name, rfl⟩
      · exact ⟨name, by simp⟩
    · rw [trim_filename, if_neg (by omega), if_neg (by simp [ellipsis]; omega)]
      have hs : (W - ellipsis.length + 1) / 2 ≤ name.length := by
        simp only [ellipsis]; simp only [List.length_cons, List.length_nil]
        omega
      have he : (W - ellipsis.length) / 2 ≤ name.length := by
        simp only [ellipsis]; simp only [List.length_cons, List.length_nil]
        omega
      refine ⟨?_, name.take ((W - ellipsis.length + 1) / 2), name.drop
        (name.length - (W - ellipsis.length) / 2), rfl, ?_, ?_⟩
      · simp only [List.length_append, List.length_take, List.length_drop,
          ellipsis, List.length_cons, List.length_nil] at *
        omega
      · exact ⟨name.drop ((W - ellipsis.length + 1) / 2),
          List.take_append_drop _ _⟩
      · exact ⟨name.take (name.length - (W - ellipsis.length) / 2),
          List.take_append_drop _ _⟩
  · rw [trim_filename, if_neg (by omega), if_pos (by simp [ellipsis]; omega)]
  · rw [trim_filename, if_pos h]

/-- C6 witness: the amended statement at the concrete inputs `abcdef`
with width 5, `abcd` with width 2, and `ab` with width 4. -/
theorem C6_witness :
    ((trim_filename ['a', 'b', 'c', 'd', 'e', 'f'] 5).length = 5 ∧
      ∃ pre suf, trim_filename ['a', 'b', 'c', 'd', 'e', 'f'] 5 =
          pre ++ ellipsis ++ suf ∧
        pre <+: ['a', 'b', 'c', 'd', 'e', 'f'] ∧
        suf <:+ ['a', 'b', 'c', 'd', 'e', 'f'])
  ∧ trim_filename ['a', 'b', 'c', 'd'] 2 = ellipsis
  ∧ trim_filename ['a', 'b'] 4 = ['a', 'b'] :=
  ⟨C6_trim_filename_amended.1 ['a', 'b', 'c', 'd', 'e', 'f'] 5
      (by decide) (by decide),
   C6_trim_filename_amended.2.1 ['a', 'b', 'c', 'd'] 2 (by decide) (by decide),
   C6_trim_filename_amended.2.2 ['a', 'b'] 4 (by decide)⟩

/-- C3 counterexample: the distinct top-level sources `a/x` and `b/x`
share the basename `x`, so their resolved targets under the same
destination coincide — the two units would write the same files. -/
theorem C3_counterexample :
    (⟨false, [Comp.normal "a", Comp.normal "x"]⟩ : Path) ≠
      ⟨false, [Comp.normal "b", Comp.normal "x"]⟩ ∧
    resolvedTarget ⟨true, [Comp.normal "dst"]⟩
        ⟨false, [Comp.normal "a", Comp.normal "x"]⟩ =
      resolvedTarget ⟨true, [Comp.normal "dst"]⟩
        ⟨false, [Comp.normal "b", Comp.normal "x"]⟩ := by
  constructor
  · intro h
    simp only [Path.mk.injEq] at h
    simp at h
  · rfl

/-- C3 (amended): two units of one run write to disjoint destination
subtrees provided both sources have a present `file_name()` and those
names differ: the targets `destination.join(basename(source))` are then
distinct, and no path below one target equals a path below the other, so
those two units never write the same file.  Entries that share a basename,
and entries without a `file_name()` (paths ending in `..` or bare roots,
whose raw-string fallback `join` re-parses in full) are not covered: they
can collide or alias. -/
theorem C3_amended_disjoint_targets (destination : Path) (p1 p2 : Path)
    (n1 n2 : String) (h1 : p1.fileName = some n1) (h2 : p2.fileName = some n2)
    (hne : n1 ≠ n2) :
    resolvedTarget destination p1 ≠ resolvedTarget destination p2 ∧
    ∀ r1 r2 : List String,
      (resolvedTarget destination p1).pushAll r1 ≠
        (resolvedTarget destination p2).pushAll r2 := by
  have e1 : resolvedTarget destination p1 =
      ⟨destination.absolute, destination.comps ++ [Comp.normal n1]⟩ := by
    simp [resolvedTarget, h1, Path.join]
  have e2 : resolvedTarget destination p2 =
      ⟨destination.absolute, destination.comps ++ [Comp.normal n2]⟩ := by
    simp [resolvedTarget, h2, Path.join]
  constructor
  · intro hEq
    rw [e1, e2] at hEq
    simp only [Path.mk.injEq, List.append_cancel_left_eq, List.cons.injEq,
      Comp.normal.injEq] at hEq
    exact hne hEq.2.1
  · intro r1 r2 hEq
    rw [e1, e2] at hEq
    simp only [Path.pushAll, Path.mk.injEq, List.append_assoc,
      List.append_cancel_left_eq] at hEq
    simp only [List.cons_append, List.nil_append, List.cons.injEq,
      Comp.normal.injEq] at hEq
    exact hne hEq.2.1

/-- C3 witness: the amended statement for the sources `a` and `b` under
destination `/dst`. -/
theorem C3_witness :
    resolvedTarget ⟨true, [Comp.normal "dst"]⟩ ⟨false, [Comp.normal "a"]⟩ ≠
      resolvedTarget ⟨true, [Comp.normal "dst"]⟩ ⟨false, [Comp.normal "b"]⟩ ∧
    ∀ r1 r2 : List String,
      (resolvedTarget ⟨true, [Comp.normal "dst"]⟩
          ⟨false, [Comp.normal "a"]⟩).pushAll r1 ≠
        (resolvedTarget ⟨true, [Comp.normal "dst"]⟩
            ⟨false, [Comp.normal "b"]⟩).pushAll r2 :=
  C3_amended_disjoint_targets ⟨true, [Comp.normal "dst"]⟩
    ⟨false, [Comp.normal "a"]⟩ ⟨false, [Comp.normal "b"]⟩ "a" "b"
    rfl rfl (by decide)

/-- C4 counterexample: a missing source entry does occupy a concurrency
slot — its task trace acquires the semaphore permit first and only then
runs the validity checks and records the failure. -/
theorem C4_counterexample :
    Event.acquire ∈ taskEvents none false ∧
    taskEvents none false =
      [Event.acquire, Event.recordFailure, Event.release] := by
  exact ⟨by simp [taskEvents], rfl⟩

/-- C4 (amended): for every top-level source entry that does not exist, or
is a directory when recursion was not requested, the scheduler records a
failure and skips the entry without doing any copy work — but the checks
run after slot acquisition, so the entry briefly occupies one of the N
concurrency slots, which is released when the task finishes. -/
theorem C4_amended_invalid_entry (src : Option FsTree) (recursive : Bool)
    (h : src = none ∨ ∃ es, src = some (FsTree.dir es) ∧ recursive = false) :
    taskEvents src recursive =
      [Event.acquire, Event.recordFailure, Event.release] := by
  rcases h with h | ⟨es, h, hr⟩
  · subst h; rfl
  · subst h; subst hr; rfl

/-- C4 witness: the amended statement for a directory entry scheduled
without the recursive flag. -/
theorem C4_witness :
    taskEvents (some (FsTree.dir [])) false =
      [Event.acquire, Event.recordFailure, Event.release] :=
  C4_amended_invalid_entry (some (FsTree.dir [])) false
    (Or.inr ⟨[], rfl, rfl⟩)

/-- The chunked copy loop appends exactly the remaining source bytes to the
destination and adds their number to `total_bytes`. -/
theorem copyLoop_spec : ∀ (k : Nat) (rem : List Nat) (st : CopyState)
    (pb : Bool), rem.length ≤ k →
    (copyLoop rem st pb).written = st.written ++ rem ∧
    (copyLoop rem st pb).total_bytes = st.total_bytes + rem.length := by
  intro k
  induction k with
  | zero =>
    intro rem st pb h
    have hrem : rem = [] := List.length_eq_zero.mp (Nat.le_zero.mp h)
    subst hrem
    rw [copyLoop]
    simp
  | succ k ih =>
    intro rem st pb h
    rw [copyLoop]
    by_cases hc : (rem.take BUFFER_SIZE).length = 0
    · rw [if_pos hc]
      have hrem : rem = [] := by
        simp only [List.length_take, BUFFER_SIZE] at hc
        have := List.length_eq_zero.mp (by omega : rem.length = 0)
        exact this
      subst hrem
      simp
    · rw [if_neg hc]
      have hpos : 0 < rem.length := by
        simp only [List.length_take, BUFFER_SIZE] at hc
        omega
      have hlen : (rem.drop BUFFER_SIZE).length ≤ k := by
        simp only [List.length_drop, BUFFER_SIZE] at *
        omega
      obtain ⟨h1, h2⟩ := ih (rem.drop BUFFER_SIZE) _ pb hlen
      constructor
      · rw [h1]
        simp [List.append_assoc]
      · rw [h2]
        simp only [List.length_take, List.length_drop]
        omega

/-- The dual-progress copy loop appends exactly the remaining source bytes
to the destination and adds their number to `total_bytes`. -/
theorem dualCopyLoop_spec : ∀ (k : Nat) (rem : List Nat)
    (st : DualCopyState) (fpb mpb : Bool), rem.length ≤ k →
    (dualCopyLoop rem st fpb mpb).written = st.written ++ rem ∧
    (dualCopyLoop rem st fpb mpb).total_bytes = st.total_bytes + rem.length := by
  intro k
  induction k with
  | zero =>
    intro rem st fpb mpb h
    have hrem : rem = [] := List.length_eq_zero.mp (Nat.le_zero.mp h)
    subst hrem
    rw [dualCopyLoop]
    simp
  | succ k ih =>
    intro rem st fpb mpb h
    rw [dualCopyLoop]
    by_cases hc : (rem.take BUFFER_SIZE).length = 0
    · rw [if_pos hc]
      have hrem : rem = [] := by
        simp only [List.length_take, BUFFER_SIZE] at hc
        exact List.length_eq_zero.mp (by omega : rem.length = 0)
      subst hrem
      simp
    · rw [if_neg hc]
      have hlen : (rem.drop BUFFER_SIZE).length ≤ k := by
        simp only [List.length_take, BUFFER_SIZE] at hc
        simp only [List.length_drop, BUFFER_SIZE]
        omega
      obtain ⟨h1, h2⟩ := ih (rem.drop BUFFER_SIZE) _ fpb mpb hlen
      constructor
      · rw [h1]
        simp [List.append_assoc]
      · rw [h2]
        simp only [List.length_take, List.length_drop]
        omega

/-- C8: a successful chunked file copy — single or dual progress —
returns a total byte count equal to the source size, and the destination
content is byte-for-byte the source content. -/
theorem C8_copy_file_roundtrip :
    ∀ src : List Nat,
      (∀ pb, (copy_file_with_progress src pb).written = src ∧
        (copy_file_with_progress src pb).total_bytes = src.length)
    ∧ (∀ fpb mpb, (copy_file_with_dual_progress src fpb mpb).written = src ∧
        (copy_file_with_dual_progress src fpb mpb).total_bytes = src.length) := by
  intro src
  constructor
  · intro pb
    have := copyLoop_spec src.length src ⟨[], 0, 0, 0, 0⟩ pb le_rfl
    simpa [copy_file_with_progress] using this
  · intro fpb mpb
    have := dualCopyLoop_spec src.length src ⟨[], 0, 0, 0, 0, 0⟩ fpb mpb le_rfl
    simpa [copy_file_with_dual_progress] using this

/-- The combined size of the direct children of a directory is smaller than
the size of the directory node itself. -/
theorem childSizes_lt (es : List (String × FsTree)) :
    ((es.map Prod.snd).map sizeOf).sum < 1 + sizeOf es := by
  induction es with
  | nil => simp
  | cons e rest ih =>
    obtain ⟨n, t⟩ := e
    simp only [List.map_cons, List.sum_cons, List.cons.sizeOf_spec,
      Prod.mk.sizeOf_spec]
    omega

/-- Lemma: `fileCountList` is the sum of the children's `fileCount`. -/
theorem fileCountList_eq_sum : ∀ es : List (String × FsTree),
    fileCountList es = ((es.map Prod.snd).map fileCount).sum := by
  intro es
  induction es with
  | nil => rfl
  | cons e rest ih =>
    obtain ⟨n, t⟩ := e
    simp [fileCountList, ih]

/-- Lemma: `totalSizeList` is the sum of the children's `totalSize`. -/
theorem totalSizeList_eq_sum : ∀ es : List (String × FsTree),
    totalSizeList es = ((es.map Prod.snd).map totalSize).sum := by
  intro es
  induction es with
  | nil => rfl
  | cons e rest ih =>
    obtain ⟨n, t⟩ := e
    simp [totalSizeList, ih]

/-- The explicit-stack loop of `get_copy_size` accumulates exactly the
file count and the total byte size of everything on the stack. -/
theorem sizeLoop_spec : ∀ (k : Nat) (stack : List FsTree) (nf ts : Nat),
    (stack.map sizeOf).sum ≤ k →
    sizeLoop stack nf ts =
      (nf + (stack.map fileCount).sum, ts + (stack.map totalSize).sum) := by
  intro k
  induction k with
  | zero =>
    intro stack nf ts h
    cases stack with
    | nil => simp [sizeLoop]
    | cons t rest =>
      exfalso
      cases t <;>
        simp only [List.map_cons, List.sum_cons, FsTree.file.sizeOf_spec,
          FsTree.dir.sizeOf_spec] at h <;> omega
  | succ k ih =>
    intro stack nf ts h
    cases stack with
    | nil => simp [sizeLoop]
    | cons t rest =>
      cases t with
      | file c =>
        rw [sizeLoop, ih rest (nf + 1) (ts + c.length) (by
          simp only [List.map_cons, List.sum_cons, FsTree.file.sizeOf_spec] at h
          omega)]
        simp only [List.map_cons, List.sum_cons, fileCount, totalSize,
          Prod.mk.injEq]
        omega
      | dir es =>
        have hm : (((es.map Prod.snd).reverse ++ rest).map sizeOf).sum ≤ k := by
          have := childSizes_lt es
          simp only [List.map_append, List.sum_append, List.map_reverse,
            List.sum_reverse, List.map_cons, List.sum_cons,
            FsTree.dir.sizeOf_spec] at *
          omega
        rw [sizeLoop, ih _ nf ts hm]
        simp only [List.map_append, List.sum_append, List.map_reverse,
          List.sum_reverse, List.map_cons, List.sum_cons, fileCount, totalSize,
          Prod.mk.injEq, fileCountList_eq_sum, totalSizeList_eq_sum]

/-- C7: `get_copy_size` never fails: on any subtree it returns the pair
(number of regular files, sum of their sizes in bytes), and on a
non-existent path it returns `(0, 0)`. -/
theorem C7_get_copy_size :
    (∀ t : FsTree, get_copy_size (some t) = (fileCount t, totalSize t)) ∧
    get_copy_size none = (0, 0) := by
  constructor
  · intro t
    show sizeLoop [t] 0 0 = _
    rw [sizeLoop_spec (([t].map sizeOf).sum) [t] 0 0 le_rfl]
    simp
  · rfl

/-- Folding a component list that ends in a normal name pushes that name. -/
theorem normAux_append_normal : ∀ (cs : List Comp) (acc : List NComp)
    (s : String), normAux acc (cs ++ [Comp.normal s]) =
      normAux acc cs ++ [NComp.normal s] := by
  intro cs
  induction cs with
  | nil => intro acc s; rfl
  | cons c cs ih =>
    intro acc s
    simp only [List.cons_append, normAux]
    exact ih _ s

/-- Normalizing a path extended with one plain name appends that name. -/
theorem normalize_push (p : Path) (n : String) :
    normalize_path (p.push n) = normalize_path p ++ [NComp.normal n] := by
  simp only [normalize_path, Path.push]
  exact normAux_append_normal _ _ _

/-- Lemma: `join` distributes over pushing a plain name. -/
theorem join_push (cwd p : Path) (n : String) :
    cwd.join (p.push n) = (cwd.join p).push n := by
  simp only [Path.join, Path.push]
  by_cases h : p.absolute
  · simp [h]
  · simp [h, List.append_assoc]

/-- Resolving and normalizing a path extended with one plain name appends
that name to the normalized form. -/
theorem normalize_join_push (cwd p : Path) (n : String) :
    normalize_path (cwd.join (p.push n)) =
      normalize_path (cwd.join p) ++ [NComp.normal n] := by
  rw [join_push, normalize_push]

/-- The self-containment check fires exactly when the normalized
destination is the normalized source extended by one or more components. -/
theorem destInsideSource_iff (cwd src dst : Path) :
    destInsideSource cwd src dst = true ↔
      ∃ r : List NComp, r ≠ [] ∧
        normalize_path (cwd.join dst) = normalize_path (cwd.join src) ++ r := by
  simp only [destInsideSource, Bool.and_eq_true, decide_eq_true_eq]
  constructor
  · rintro ⟨⟨r, hr⟩, hne⟩
    refine ⟨r, ?_, hr.symm⟩
    intro h0
    subst h0
    exact hne (by rw [← hr, List.append_nil])
  · rintro ⟨r, hr0, hr⟩
    refine ⟨⟨r, hr.symm⟩, ?_⟩
    rw [hr]
    intro h
    have := congrArg List.length h
    simp only [List.length_append] at this
    exact hr0 (List.length_eq_zero.mp (by omega))

/-- If the pushed source/destination pair trips the self-containment check,
so did the unpushed pair. -/
theorem destInsideSource_push_aux (cwd src dst : Path) (n : String)
    (h : destInsideSource cwd (src.push n) (dst.push n) = true) :
    destInsideSource cwd src dst = true := by
  simp only [destInsideSource, Bool.and_eq_true, decide_eq_true_eq,
    normalize_join_push] at h ⊢
  obtain ⟨⟨r, hr⟩, hne⟩ := h
  set f := normalize_path (cwd.join src) with hf
  set t := normalize_path (cwd.join dst) with ht
  rcases Nat.lt_or_ge f.length t.length with hlt | hge
  · have hlen : (f ++ [NComp.normal n]).length ≤ t.length := by
      simp only [List.length_append, List.length_cons, List.length_nil]
      omega
    have hpre : f ++ [NComp.normal n] <+: t ++ [NComp.normal n] := ⟨r, hr⟩
    have htake : f ++ [NComp.normal n] =
        t.take ((f ++ [NComp.normal n]).length) := by
      have h1 := List.prefix_iff_eq_take.mp hpre
      rwa [List.take_append_of_le_length hlen] at h1
    have hft : f ++ [NComp.normal n] <+: t := by
      have key := List.take_append_drop ((f ++ [NComp.normal n]).length) t
      rw [← htake] at key
      exact ⟨t.drop ((f ++ [NComp.normal n]).length), key⟩
    obtain ⟨u, hu⟩ := hft
    refine ⟨⟨[NComp.normal n] ++ u, ?_⟩, ?_⟩
    · rw [← List.append_assoc]
      exact hu
    · intro he
      rw [he] at hlt
      exact Nat.lt_irrefl _ hlt
  · have hlen := congrArg List.length hr
    simp only [List.length_append, List.length_cons, List.length_nil] at hlen
    have hr0 : r = [] := List.length_eq_zero.mp (by omega)
    subst hr0
    rw [List.append_nil] at hr
    exact absurd hr.symm hne

/-- The self-containment check stays clear along the recursive calls of
`copy_dir_recursive`, which extend source and destination by the same
entry name. -/
theorem destInsideSource_push_false (cwd src dst : Path) (n : String)
    (h : destInsideSource cwd src dst = false) :
    destInsideSource cwd (src.push n) (dst.push n) = false := by
  cases hb : destInsideSource cwd (src.push n) (dst.push n) with
  | false => rfl
  | true =>
    rw [destInsideSource_push_aux cwd src dst n hb] at h
    exact absurd h (by simp)

/-- When the self-containment check is clear, `copy_dir_recursive` on a
directory succeeds and performs exactly the mirrored effect list. -/
theorem copy_dir_ok :
    (∀ t : FsTree, ∀ cwd src dst : Path, ∀ pb : Bool,
      ∀ es : List (String × FsTree), t = FsTree.dir es →
      destInsideSource cwd src dst = false →
      copy_dir_recursive cwd src dst pb t =
        (Eff.mkdir dst :: entryEffs dst pb es, none)) ∧
    (∀ es : List (String × FsTree), ∀ cwd src dst : Path, ∀ pb : Bool,
      destInsideSource cwd src dst = false →
      copyEntries cwd src dst pb es = (entryEffs dst pb es, none)) := by
  apply fsTree_mutual_induction
    (fun t => ∀ cwd src dst : Path, ∀ pb : Bool,
      ∀ es : List (String × FsTree), t = FsTree.dir es →
      destInsideSource cwd src dst = false →
      copy_dir_recursive cwd src dst pb t =
        (Eff.mkdir dst :: entryEffs dst pb es, none))
    (fun es => ∀ cwd src dst : Path, ∀ pb : Bool,
      destInsideSource cwd src dst = false →
      copyEntries cwd src dst pb es = (entryEffs dst pb es, none))
  · intro c cwd src dst pb es h
    cases h
  · intro es ihQ cwd src dst pb es' heq hck
    injection heq with heq
    subst heq
    simp only [copy_dir_recursive, hck, Bool.false_eq_true, if_false,
      ihQ cwd src dst pb hck]
  · intro cwd src dst pb hck
    simp [copyEntries, entryEffs]
  · intro n t rest iht ihrest cwd src dst pb hck
    cases t with
    | file c =>
      simp only [copyEntries, entryEffs, ihrest cwd src dst pb hck]
    | dir es' =>
      have hck' := destInsideSource_push_false cwd src dst n hck
      have h1 := iht cwd (src.push n) (dst.push n) pb es' rfl hck'
      simp only [copyEntries, entryEffs, h1, ihrest cwd src dst pb hck,
        List.cons_append]

/-- Lemma: `copy_dir_recursive` reports the self-containment error exactly when
the check fires. -/
theorem copy_dir_err_iff (cwd src dst : Path) (pb : Bool) (t : FsTree) :
    (copy_dir_recursive cwd src dst pb t).2 = some insideErr ↔
      destInsideSource cwd src dst = true := by
  constructor
  · intro h
    cases hb : destInsideSource cwd src dst with
    | true => rfl
    | false =>
      exfalso
      cases t with
      | file c =>
        simp only [copy_dir_recursive, hb, Bool.false_eq_true, if_false,
          Option.some.injEq] at h
        exact absurd h (by simp [readDirErr, insideErr])
      | dir es =>
        rw [copy_dir_ok.1 (FsTree.dir es) cwd src dst pb es rfl hb] at h
        simp at h
  · intro h
    cases t <;> simp [copy_dir_recursive, h]

/-- C2: `copy_dir_recursive` fails with the destination-inside-source error
exactly when the destination's normalized path (resolved against the
current working directory) equals the source's normalized path extended by
one or more components; in every other configuration — sibling, unrelated
path, or destination equal to the source — that error is not raised. -/
theorem C2_dest_inside_source_error (cwd src dst : Path) (pb : Bool)
    (t : FsTree) :
    (copy_dir_recursive cwd src dst pb t).2 = some insideErr ↔
      ∃ r : List NComp, r ≠ [] ∧
        normalize_path (cwd.join dst) = normalize_path (cwd.join src) ++ r := by
  rw [copy_dir_err_iff, destInsideSource_iff]

/-- C10: when `copy_dir_recursive` returns the destination-inside-source
error it has performed no filesystem mutation — the check runs before the
destination directory is created and before any source entry is read. -/
theorem C10_inside_error_no_mutation (cwd src dst : Path) (pb : Bool)
    (t : FsTree)
    (h : (copy_dir_recursive cwd src dst pb t).2 = some insideErr) :
    (copy_dir_recursive cwd src dst pb t).1 = [] := by
  have hck := (copy_dir_err_iff cwd src dst pb t).mp h
  cases t <;> simp [copy_dir_recursive, hck]

/-- C10 witness: copying `/a` into `/a/b` returns the error with an empty
effect list. -/
theorem C10_witness :
    (copy_dir_recursive ⟨true, []⟩ ⟨false, [Comp.normal "a"]⟩
        ⟨false, [Comp.normal "a", Comp.normal "b"]⟩ false
        (FsTree.dir [("f", FsTree.file [1])])).1 = [] :=
  C10_inside_error_no_mutation ⟨true, []⟩ ⟨false, [Comp.normal "a"]⟩
    ⟨false, [Comp.normal "a", Comp.normal "b"]⟩ false
    (FsTree.dir [("f", FsTree.file [1])]) (by
      simp only [copy_dir_recursive]
      rw [if_pos (by decide)])

/-- Pushing an empty relative chain is the identity. -/
theorem pushAll_nil (p : Path) : p.pushAll [] = p := by
  simp [Path.pushAll]

/-- Pushing a relative chain one name at a time. -/
theorem pushAll_cons (p : Path) (n : String) (r : List String) :
    p.pushAll (n :: r) = (p.push n).pushAll r := by
  simp [Path.pushAll, Path.push]

/-- Distinct relative chains below the same base give distinct paths. -/
theorem pushAll_inj (p : Path) {r1 r2 : List String}
    (h : p.pushAll r1 = p.pushAll r2) : r1 = r2 := by
  simp only [Path.pushAll, Path.mk.injEq, List.append_cancel_left_eq,
    true_and] at h
  exact List.map_injective_iff.mpr (fun a b hab => Comp.normal.inj hab) h

/-- The chunked file copier writes back exactly the source bytes
(single-progress variant). -/
theorem copy_file_written (c : List Nat) (pb : Bool) :
    (copy_file_with_progress c pb).written = c := by
  have h := copyLoop_spec c.length c ⟨[], 0, 0, 0, 0⟩ pb le_rfl
  simpa [copy_file_with_progress] using h.1

/-- The chunked file copier writes back exactly the source bytes
(dual-progress variant). -/
theorem dual_copy_written (c : List Nat) (fpb mpb : Bool) :
    (copy_file_with_dual_progress c fpb mpb).written = c := by
  have h := dualCopyLoop_spec c.length c ⟨[], 0, 0, 0, 0, 0⟩ fpb mpb le_rfl
  simpa [copy_file_with_dual_progress] using h.1

/-- The destination paths the mirrored effect list touches are exactly the
source's relative paths re-rooted at the destination, in traversal order. -/
theorem entryEffs_paths :
    (∀ t : FsTree, ∀ dst : Path, ∀ pb : Bool,
      ∀ es : List (String × FsTree), t = FsTree.dir es →
      (entryEffs dst pb es).map Eff.path =
        (relPathsList es).map (Path.pushAll dst)) ∧
    (∀ es : List (String × FsTree), ∀ dst : Path, ∀ pb : Bool,
      (entryEffs dst pb es).map Eff.path =
        (relPathsList es).map (Path.pushAll dst)) := by
  apply fsTree_mutual_induction
    (fun t => ∀ dst : Path, ∀ pb : Bool,
      ∀ es : List (String × FsTree), t = FsTree.dir es →
      (entryEffs dst pb es).map Eff.path =
        (relPathsList es).map (Path.pushAll dst))
    (fun es => ∀ dst : Path, ∀ pb : Bool,
      (entryEffs dst pb es).map Eff.path =
        (relPathsList es).map (Path.pushAll dst))
  · intro c dst pb es h
    cases h
  · intro es ihQ dst pb es' heq
    injection heq with heq
    subst heq
    exact ihQ dst pb
  · intro dst pb
    simp [entryEffs, relPathsList]
  · intro n t rest iht ihrest dst pb
    cases t with
    | file c =>
      simp only [entryEffs, relPathsList, relPaths, List.map_cons,
        List.map_nil, List.cons_append, List.nil_append, Eff.path,
        ihrest dst pb, pushAll_cons, pushAll_nil]
    | dir es' =>
      have h1 := iht (dst.push n) pb es' rfl
      simp only [entryEffs, relPathsList, relPaths, List.map_append,
        List.map_cons, List.cons_append, Eff.path, h1, ihrest dst pb,
        List.map_map, Function.comp_def, pushAll_cons, pushAll_nil]

/-- A write effect for destination path `dst ++ r` appears in the mirrored
effect list of an entry list exactly when the source holds a regular file
with that content at relative path `r`. -/
theorem entryEffs_mem_write :
    (∀ t : FsTree, ∀ dst : Path, ∀ pb : Bool,
      ∀ es : List (String × FsTree), t = FsTree.dir es →
      ∀ (r : List String) (c : List Nat),
        (Eff.writeFile (dst.pushAll r) c ∈ entryEffs dst pb es ↔
          ∃ m r', r = m :: r' ∧ hasFileList es m r' c = true)) ∧
    (∀ es : List (String × FsTree), ∀ dst : Path, ∀ pb : Bool,
      ∀ (r : List String) (c : List Nat),
        (Eff.writeFile (dst.pushAll r) c ∈ entryEffs dst pb es ↔
          ∃ m r', r = m :: r' ∧ hasFileList es m r' c = true)) := by
  apply fsTree_mutual_induction
    (fun t => ∀ dst : Path, ∀ pb : Bool,
      ∀ es : List (String × FsTree), t = FsTree.dir es →
      ∀ (r : List String) (c : List Nat),
        (Eff.writeFile (dst.pushAll r) c ∈ entryEffs dst pb es ↔
          ∃ m r', r = m :: r' ∧ hasFileList es m r' c = true))
    (fun es => ∀ dst : Path, ∀ pb : Bool,
      ∀ (r : List String) (c : List Nat),
        (Eff.writeFile (dst.pushAll r) c ∈ entryEffs dst pb es ↔
          ∃ m r', r = m :: r' ∧ hasFileList es m r' c = true))
  · intro c dst pb es h
    cases h
  · intro es ihQ dst pb es' heq
    injection heq with heq
    subst heq
    exact ihQ dst pb
  · intro dst pb r c
    simp [entryEffs, hasFileList]
  · intro n t rest iht ihrest dst pb r c
    cases t with
    | file cf =>
      simp only [entryEffs, copy_file_written, List.mem_cons]
      constructor
      · rintro (heq | hmem)
        · simp only [Eff.writeFile.injEq] at heq
          obtain ⟨hp, hc⟩ := heq
          have hr : r = [n] := by
            apply pushAll_inj dst
            rw [hp, pushAll_cons, pushAll_nil]
          refine ⟨n, [], hr, ?_⟩
          simp [hasFileList, hasFile, hc]
        · obtain ⟨m, r', hr, hh⟩ := (ihrest dst pb r c).mp hmem
          exact ⟨m, r', hr, by simp [hasFileList, hh]⟩
      · rintro ⟨m, r', hr, hh⟩
        subst hr
        simp only [hasFileList, Bool.or_eq_true, Bool.and_eq_true,
          decide_eq_true_eq] at hh
        rcases hh with ⟨hm, hf⟩ | hh
        · subst hm
          cases r' with
          | nil =>
            left
            simp only [hasFile, decide_eq_true_eq] at hf
            rw [pushAll_cons, pushAll_nil, hf]
          | cons m2 r2 =>
            exact absurd hf (by simp [hasFile])
        · right
          exact (ihrest dst pb (m :: r') c).mpr ⟨m, r', rfl, hh⟩
    | dir es' =>
      simp only [entryEffs, List.mem_append, List.mem_cons]
      constructor
      · rintro ((heq | hmem1) | hmem2)
        · exact absurd heq (by simp)
        · have hmap : Eff.path (Eff.writeFile (dst.pushAll r) c) ∈
              (entryEffs (dst.push n) pb es').map Eff.path :=
            List.mem_map_of_mem _ hmem1
          rw [entryEffs_paths.2 es' (dst.push n) pb] at hmap
          obtain ⟨q, hqmem, hqe⟩ := List.mem_map.mp hmap
          simp only [Eff.path] at hqe
          have hr : r = n :: q := by
            apply pushAll_inj dst
            rw [pushAll_cons]
            exact hqe.symm
          subst hr
          rw [pushAll_cons] at hmem1
          obtain ⟨m2, r2, hq2, hh2⟩ :=
            (iht (dst.push n) pb es' rfl q c).mp hmem1
          refine ⟨n, q, rfl, ?_⟩
          subst hq2
          simp [hasFileList, hasFile, hh2]
        · obtain ⟨m, r', hr, hh⟩ := (ihrest dst pb r c).mp hmem2
          exact ⟨m, r', hr, by simp [hasFileList, hh]⟩
      · rintro ⟨m, r', hr, hh⟩
        subst hr
        simp only [hasFileList, Bool.or_eq_true, Bool.and_eq_true,
          decide_eq_true_eq] at hh
        rcases hh with ⟨hm, hf⟩ | hh
        · subst hm
          cases r' with
          | nil => exact absurd hf (by simp [hasFile])
          | cons m2 r2 =>
            simp only [hasFile] at hf
            left
            right
            rw [pushAll_cons]
            exact (iht (dst.push n) pb es' rfl (m2 :: r2) c).mpr
              ⟨m2, r2, rfl, hf⟩
        · right
          exact (ihrest dst pb (m :: r') c).mpr ⟨m, r', rfl, hh⟩

/-- C1: for every source directory tree and a destination that does not
trip the self-containment check, `copy_dir_recursive` returns without
error, the destination paths it creates are exactly the source's relative
paths re-rooted at the destination, and it writes a file with content `c`
at relative path `r` exactly when the source holds a regular file with
content `c` at `r` (round-trip fidelity). -/
theorem C1_copy_dir_roundtrip (cwd src dst : Path) (pb : Bool)
    (es : List (String × FsTree))
    (h : destInsideSource cwd src dst = false) :
    ∃ effs : List Eff,
      copy_dir_recursive cwd src dst pb (FsTree.dir es) = (effs, none) ∧
      effs.map Eff.path = (relPaths (FsTree.dir es)).map (Path.pushAll dst) ∧
      ∀ (r : List String) (c : List Nat),
        (Eff.writeFile (dst.pushAll r) c ∈ effs ↔
          hasFile (FsTree.dir es) r c = true) := by
  refine ⟨Eff.mkdir dst :: entryEffs dst pb es,
    copy_dir_ok.1 (FsTree.dir es) cwd src dst pb es rfl h, ?_, ?_⟩
  · simp only [List.map_cons, Eff.path, relPaths, entryEffs_paths.2 es dst pb,
      pushAll_nil]
  · intro r c
    simp only [List.mem_cons]
    cases r with
    | nil =>
      constructor
      · rintro (heq | hmem)
        · exact absurd heq (by simp)
        · obtain ⟨m, r', hr, _⟩ :=
            (entryEffs_mem_write.2 es dst pb [] c).mp hmem
          cases hr
      · intro hf
        exact absurd hf (by simp [hasFile])
    | cons n r' =>
      simp only [hasFile]
      constructor
      · rintro (heq | hmem)
        · exact absurd heq (by simp)
        · obtain ⟨m, r'', hr, hh⟩ :=
            (entryEffs_mem_write.2 es dst pb (n :: r') c).mp hmem
          injection hr with h1 h2
          subst h1
          subst h2
          exact hh
      · intro hh
        right
        exact (entryEffs_mem_write.2 es dst pb (n :: r') c).mpr
          ⟨n, r', rfl, hh⟩

/-- C1 witness: copying the tree `{f ↦ [7]}` from `/s` to `/d`. -/
theorem C1_witness :
    ∃ effs : List Eff,
      copy_dir_recursive ⟨true, []⟩ ⟨false, [Comp.normal "s"]⟩
          ⟨false, [Comp.normal "d"]⟩ false
          (FsTree.dir [("f", FsTree.file [7])]) = (effs, none) ∧
      effs.map Eff.path =
        (relPaths (FsTree.dir [("f", FsTree.file [7])])).map
          (Path.pushAll ⟨false, [Comp.normal "d"]⟩) ∧
      ∀ (r : List String) (c : List Nat),
        (Eff.writeFile (Path.pushAll ⟨false, [Comp.normal "d"]⟩ r) c ∈ effs ↔
          hasFile (FsTree.dir [("f", FsTree.file [7])]) r c = true) :=
  C1_copy_dir_roundtrip ⟨true, []⟩ ⟨false, [Comp.normal "s"]⟩
    ⟨false, [Comp.normal "d"]⟩ false [("f", FsTree.file [7])] (by decide)

/-- C5: given the sources `A` (a 5-byte file) and `B` (missing) with
recursion disabled, the scheduler copies `A` byte-for-byte to
`destination.join(basename(A))`, records `B` as failed, and the aggregate
failure flag is true — `B`'s failure does not prevent `A`'s copy. -/
theorem C5_partial_failure :
    run_copy ⟨true, []⟩ ⟨true, [Comp.normal "dest"]⟩ false false
      [("A", ⟨false, [Comp.normal "A"]⟩,
          some (FsTree.file [10, 20, 30, 40, 50])),
       ("B", ⟨false, [Comp.normal "B"]⟩, none)] =
      ([Eff.writeFile (Path.push ⟨true, [Comp.normal "dest"]⟩ "A")
          [10, 20, 30, 40, 50]], true) := by
  have hw := dual_copy_written [10, 20, 30, 40, 50] false false
  simp only [run_copy, runUnit, hw]
  rfl

end Cp2
